import Mathlib

/-!
Verification of the graph-execution program: a dependency model
(Requirement nodes with per-kind dependency functions), a graph builder,
a Kahn-style topological sorter with FIFO and LIFO tie-break policies,
a serial executor and a concurrent scheduler.

The source is embedded shallowly:
* a networkx DiGraph is modelled by its node list (insertion order) and
  its edge list (insertion order); successors of a node are the targets
  of its outgoing edges in insertion order, exactly the adjacency order
  networkx maintains;
* Python dicts mapping nodes to integers are modelled as total functions
  into Int (Python integers are unbounded and may go negative here);
* the while-loop of the sorter is modelled with explicit fuel; the fuel
  chosen is proved sufficient (the queue is empty when the loop stops);
* the thread-pool scheduler is modelled as a labelled transition system
  whose events are dispatch (the wait on predecessors succeeding,
  followed by submit and registration, performed by the single dispatch
  thread), start (a worker picks up a submitted task) and finish (a work
  function completes and its done-callback runs in the worker thread);
* a work function that may raise is modelled as returning Option.
-/

set_option linter.unusedSectionVars false
set_option linter.unusedVariables false

namespace GraphExecution

/-- A directed graph: node list in insertion order, edge list in insertion
order, as recorded by the networkx DiGraph built by build_graph. -/
structure Graph (α : Type) where
  nodes : List α
  edges : List (α × α)

variable {α β : Type} [DecidableEq α]

/-- Successors of a node: targets of its outgoing edges, in edge-insertion
order; this is the order dag.neighbors iterates for a networkx DiGraph. -/
def Graph.neighbors (g : Graph α) (n : α) : List α :=
  (g.edges.filter (fun e => e.1 == n)).map (fun e => e.2)

/-- Wellformedness of an embedded networkx DiGraph: the node list has no
duplicates, the edge list has no duplicates, and both endpoints of each
edge are nodes (add_edge adds its endpoints as nodes). -/
def WF (g : Graph α) : Prop :=
  g.nodes.Nodup ∧ g.edges.Nodup ∧ ∀ e ∈ g.edges, e.1 ∈ g.nodes ∧ e.2 ∈ g.nodes

/-- Acyclicity: the graph has no nonempty closed walk. -/
def Acyclic (g : Graph α) : Prop :=
  ¬ ∃ (m : Nat) (f : Nat → α), 0 < m ∧ f m = f 0 ∧ ∀ k < m, (f k, f (k + 1)) ∈ g.edges

/-- A graph admitting a rank function that strictly increases along every
edge is acyclic. -/
theorem acyclic_of_rank (g : Graph α) (r : α → Nat)
    (hr : ∀ e ∈ g.edges, r e.1 < r e.2) : Acyclic g := by
  rintro ⟨m, f, hm, hclose, hchain⟩
  have mono : ∀ k, k ≤ m → r (f 0) + k ≤ r (f k) := by
    intro k
    induction k with
    | zero => simp
    | succ k ih =>
      intro hk
      have h1 : r (f 0) + k ≤ r (f k) := ih (Nat.le_of_succ_le hk)
      have h2 : r (f k) < r (f (k + 1)) := hr _ (hchain k (Nat.lt_of_succ_le hk))
      omega
  have := mono m (Nat.le_refl m)
  rw [hclose] at this
  omega

/-- The inbound-connection dict of init_inbound_counts: start every node at
zero, then add one per edge to the edge's target.  The dict is modelled as
a total function (every key read or written is a node of the graph). -/
def init_inbound_counts (nodes : List α) (edges : List (α × α)) : α → Int :=
  edges.foldl (fun counts e => fun x => if x = e.2 then counts x + 1 else counts x)
    (fun _ => 0)

/-- The initial ready deque of init_ready_queue: the nodes without inbound
edges, in node order.  Deques are modelled as lists with the front at the
head. -/
def init_ready_queue (inbound_counts : α → Int) (nodes : List α) : List α :=
  nodes.filter (fun n => inbound_counts n == 0)

/-- reduce_inbound_connections: decrement the count of each node of ns in
turn, collecting in order the nodes whose count has just reached zero. -/
def reduce_inbound_connections (inbound_counts : α → Int) (ns : List α) :
    (α → Int) × List α :=
  ns.foldl
    (fun acc node =>
      let counts' := fun x => if x = node then acc.1 x - 1 else acc.1 x
      if counts' node == 0 then (counts', acc.2 ++ [node]) else (counts', acc.2))
    (inbound_counts, [])

/-- The state of the sorter's while loop. -/
structure SortState (α : Type) where
  sorted : List α
  counts : α → Int
  queue : List α

/-- One iteration of the while loop of topological_sort: remove a node from
the ready deque (popleft when breadth_first, pop otherwise), append it to
the output, decrement its successors' counts and enqueue the newly ready
nodes at the back. -/
def sortStep (g : Graph α) (breadth_first : Bool) (s : SortState α)
    (h : s.queue ≠ []) : SortState α :=
  let current := if breadth_first then s.queue.head h else s.queue.getLast h
  let rest := if breadth_first then s.queue.tail else s.queue.dropLast
  let r := reduce_inbound_connections s.counts (g.neighbors current)
  ⟨s.sorted ++ [current], r.1, rest ++ r.2⟩

/-- The while loop of topological_sort, with explicit fuel.  The loop stops
when the ready deque is empty; the fuel used below is proved sufficient. -/
def sortLoop (g : Graph α) (breadth_first : Bool) : Nat → SortState α → SortState α
  | 0, s => s
  | fuel + 1, s =>
    if h : s.queue = [] then s
    else sortLoop g breadth_first fuel (sortStep g breadth_first s h)

/-- The state entering the while loop of topological_sort. -/
def initSortState (g : Graph α) : SortState α :=
  let counts := init_inbound_counts g.nodes g.edges
  ⟨[], counts, init_ready_queue counts g.nodes⟩

/-- The final loop state of topological_sort. -/
def sortRun (g : Graph α) (breadth_first : Bool) : SortState α :=
  sortLoop g breadth_first (g.nodes.length + 1) (initSortState g)

/-- topological_sort: run the loop and return the accumulated node list. -/
def topological_sort (g : Graph α) (breadth_first : Bool) : List α :=
  (sortRun g breadth_first).sorted

/-- The diamond graph of the tie-break determinism property: nodes A B C D
encoded as 0 1 2 3 in construction order, edges A→B, A→C, B→D, C→D in the
order the builder records them. -/
def diamondGraph : Graph Nat :=
  ⟨[0, 1, 2, 3], [(0, 1), (0, 2), (1, 3), (2, 3)]⟩

/-- A two-node cyclic graph: 0→1 and 1→0. -/
def cycleGraph : Graph Nat :=
  ⟨[0, 1], [(0, 1), (1, 0)]⟩

/-- Number of edges into n whose source has not yet been emitted: the value
the inbound-connection dict tracks for n throughout the loop. -/
def pendingInto (g : Graph α) (sorted : List α) (n : α) : Nat :=
  g.edges.countP (fun e => decide (e.2 = n) && decide (e.1 ∉ sorted))

theorem countP_or_disjoint (l : List β) (p q : β → Bool)
    (h : ∀ x ∈ l, ¬(p x = true ∧ q x = true)) :
    l.countP (fun x => p x || q x) = l.countP p + l.countP q := by
  induction l with
  | nil => simp
  | cons a t ih =>
    have ht : ∀ x ∈ t, ¬(p x = true ∧ q x = true) := fun x hx => h x (List.mem_cons_of_mem a hx)
    have ha := h a (List.mem_cons_self a t)
    rcases hp : p a with _ | _ <;> rcases hq : q a with _ | _
    · simp [List.countP_cons, hp, hq, ih ht]
    · simp [List.countP_cons, hp, hq, ih ht]
      try omega
    · simp [List.countP_cons, hp, hq, ih ht]
      try omega
    · exact absurd ⟨hp, hq⟩ ha

theorem init_inbound_counts_eq (nodes : List α) (edges : List (α × α)) (x : α) :
    init_inbound_counts nodes edges x = (edges.countP (fun e => decide (e.2 = x)) : Int) := by
  have key : ∀ (es : List (α × α)) (m : α → Int),
      (es.foldl (fun counts e => fun y => if y = e.2 then counts y + 1 else counts y) m) x
        = m x + (es.countP (fun e => decide (e.2 = x)) : Int) := by
    intro es
    induction es with
    | nil => intro m; simp
    | cons e t ih =>
      intro m
      simp only [List.foldl_cons, List.countP_cons, ih]
      by_cases hx : e.2 = x
      · simp [hx]; omega
      · have : ¬ (x = e.2) := fun h => hx h.symm
        simp [this, hx]
  simpa using key edges (fun _ => 0)

theorem mem_neighbors (g : Graph α) (n x : α) :
    x ∈ g.neighbors n ↔ (n, x) ∈ g.edges := by
  simp only [Graph.neighbors, List.mem_map, List.mem_filter, beq_iff_eq]
  constructor
  · rintro ⟨e, ⟨he, h1⟩, h2⟩
    have : e = (n, x) := by
      cases e; simp_all
    rw [this] at he; exact he
  · intro h
    exact ⟨(n, x), ⟨h, rfl⟩, rfl⟩

theorem neighbors_nodup (g : Graph α) (hnd : g.edges.Nodup) (n : α) :
    (g.neighbors n).Nodup := by
  apply List.Nodup.map_on
  · intro e he e' he' hee
    rw [List.mem_filter] at he he'
    rcases e with ⟨a, b⟩
    rcases e' with ⟨a', b'⟩
    simp only [beq_iff_eq] at he he'
    simp only at hee
    simp [he.2, he'.2, hee]
  · exact hnd.filter _

theorem reduce_fold (counts : α → Int) (ns : List α) (hns : ns.Nodup) :
    reduce_inbound_connections counts ns =
      (fun x => if x ∈ ns then counts x - 1 else counts x,
       ns.filter (fun x => counts x == 1)) := by
  unfold reduce_inbound_connections
  have key : ∀ (ns : List α), ns.Nodup → ∀ (c : α → Int) (acc : List α),
      ns.foldl
        (fun acc node =>
          let counts' := fun x => if x = node then acc.1 x - 1 else acc.1 x
          if counts' node == 0 then (counts', acc.2 ++ [node]) else (counts', acc.2))
        (c, acc)
      = (fun x => if x ∈ ns then c x - 1 else c x, acc ++ ns.filter (fun x => c x == 1)) := by
    intro ns
    induction ns with
    | nil => intro _ c acc; simp
    | cons a t ih =>
      intro hnd c acc
      have ha : a ∉ t := (List.nodup_cons.mp hnd).1
      have ht : t.Nodup := (List.nodup_cons.mp hnd).2
      have hfun : ∀ x, (if x ∈ t then (if x = a then c x - 1 else c x) - 1
            else (if x = a then c x - 1 else c x))
          = (if x ∈ a :: t then c x - 1 else c x) := by
        intro x
        by_cases hxa : x = a
        · subst hxa
          simp [ha]
        · by_cases hxt : x ∈ t
          · simp [hxt, hxa, List.mem_cons]
          · simp [hxt, hxa, List.mem_cons]
      have hfilt : t.filter (fun x => (if x = a then c x - 1 else c x) == 1)
          = t.filter (fun x => c x == 1) := by
        apply List.filter_congr
        intro x hx
        have hxa : x ≠ a := fun h => ha (h ▸ hx)
        simp [hxa]
      rw [List.foldl_cons]
      show List.foldl _
          (if ((if a = a then c a - 1 else c a : Int) == 0) = true
            then ((fun x => if x = a then c x - 1 else c x), acc ++ [a])
            else ((fun x => if x = a then c x - 1 else c x), acc)) t = _
      by_cases hca : c a = 1
      · rw [if_pos (show ((if a = a then c a - 1 else c a : Int) == 0) = true by simp [hca])]
        rw [ih ht _ (acc ++ [a])]
        refine Prod.ext ?_ ?_
        · funext x
          exact hfun x
        · simp [hfilt, List.filter_cons, hca]
      · rw [if_neg (show ¬ ((if a = a then c a - 1 else c a : Int) == 0) = true by
          simp only [eq_self_iff_true, if_true, beq_iff_eq]
          omega)]
        rw [ih ht _ acc]
        refine Prod.ext ?_ ?_
        · funext x
          exact hfun x
        · simp [hfilt, List.filter_cons, hca]
  exact key ns hns counts []

theorem countP_pair_nodup (l : List (α × α)) (hl : l.Nodup) (c n : α) :
    l.countP (fun e => decide (e.2 = n) && decide (e.1 = c)) = if (c, n) ∈ l then 1 else 0 := by
  induction l with
  | nil => simp
  | cons e t ih =>
    have ht := (List.nodup_cons.mp hl).2
    have he : e ∉ t := (List.nodup_cons.mp hl).1
    rw [List.countP_cons]
    by_cases hec : e = (c, n)
    · subst hec
      have h0 : t.countP (fun e => decide (e.2 = n) && decide (e.1 = c)) = 0 := by
        rw [List.countP_eq_zero]
        intro a ha
        simp only [Bool.and_eq_true, decide_eq_true_eq]
        rintro ⟨h2, h1⟩
        refine he ?_
        have : a = (c, n) := by
          cases a
          simp_all
        rwa [this] at ha
      simp [h0, List.mem_cons]
    · have hpe : ¬ ((decide (e.2 = n) && decide (e.1 = c)) = true) := by
        simp only [Bool.and_eq_true, decide_eq_true_eq]
        rintro ⟨h2, h1⟩
        refine hec ?_
        cases e
        simp_all
      have hcn : ¬ ((c, n) = e) := fun hh => hec hh.symm
      have hmem : ((c, n) ∈ e :: t) ↔ ((c, n) ∈ t) := by
        rw [List.mem_cons]
        simp [hcn]
      rw [if_neg hpe, ih ht]
      simp [hmem]

theorem pendingInto_split (g : Graph α) (hnd : g.edges.Nodup) (sorted : List α)
    (current : α) (hcur : current ∉ sorted) (n : α) :
    pendingInto g sorted n
      = pendingInto g (sorted ++ [current]) n + (if (current, n) ∈ g.edges then 1 else 0) := by
  unfold pendingInto
  have hdisj : ∀ x ∈ g.edges,
      ¬((decide (x.2 = n) && decide (x.1 ∉ sorted ++ [current])) = true ∧
        (decide (x.2 = n) && decide (x.1 = current)) = true) := by
    intro x hx
    simp only [Bool.and_eq_true, decide_eq_true_eq, List.mem_append, List.mem_singleton]
    rintro ⟨⟨_, hnotin⟩, ⟨_, heq⟩⟩
    exact hnotin (Or.inr heq)
  have hsplit : ∀ x ∈ g.edges,
      ((decide (x.2 = n) && decide (x.1 ∉ sorted)) = true) ↔
        (((decide (x.2 = n) && decide (x.1 ∉ sorted ++ [current])) ||
          (decide (x.2 = n) && decide (x.1 = current))) = true) := by
    intro x hx
    simp only [Bool.and_eq_true, Bool.or_eq_true, decide_eq_true_eq, List.mem_append,
      List.mem_singleton]
    constructor
    · rintro ⟨h2, h1⟩
      by_cases hc : x.1 = current
      · exact Or.inr ⟨h2, hc⟩
      · exact Or.inl ⟨h2, fun hh => hh.elim h1 hc⟩
    · rintro (⟨h2, h1⟩ | ⟨h2, h1⟩)
      · exact ⟨h2, fun hs => h1 (Or.inl hs)⟩
      · exact ⟨h2, h1 ▸ hcur⟩
  rw [List.countP_congr hsplit,
      countP_or_disjoint _ _ _ hdisj,
      countP_pair_nodup g.edges hnd current n]

theorem pendingInto_mono (g : Graph α) (sorted sorted' : List α)
    (hsub : ∀ x ∈ sorted, x ∈ sorted') (n : α) :
    pendingInto g sorted' n ≤ pendingInto g sorted n := by
  apply List.countP_mono_left
  intro e he
  simp only [Bool.and_eq_true, decide_eq_true_eq]
  rintro ⟨h2, h1⟩
  exact ⟨h2, fun hmem => h1 (hsub _ hmem)⟩

theorem pendingInto_pos (g : Graph α) (sorted : List α) (d n : α)
    (he : (d, n) ∈ g.edges) (hd : d ∉ sorted) : 0 < pendingInto g sorted n := by
  rw [pendingInto, List.countP_pos_iff]
  exact ⟨(d, n), he, by simp [hd]⟩

/-- Invariant of the sorter's while loop. -/
structure SortInv (g : Graph α) (s : SortState α) : Prop where
  sorted_sub : ∀ x ∈ s.sorted, x ∈ g.nodes
  queue_sub : ∀ x ∈ s.queue, x ∈ g.nodes
  sorted_nodup : s.sorted.Nodup
  queue_nodup : s.queue.Nodup
  disj : ∀ x ∈ s.queue, x ∉ s.sorted
  counts_eq : ∀ n, s.counts n = (pendingInto g s.sorted n : Int)
  queue_char : ∀ n ∈ g.nodes, (n ∈ s.queue ↔ n ∉ s.sorted ∧ s.counts n = 0)
  sorted_pending : ∀ n ∈ s.sorted, pendingInto g s.sorted n = 0
  ordered : ∀ d n, (d, n) ∈ g.edges → n ∈ s.sorted → [d, n].Sublist s.sorted

theorem queue_decomp (bf : Bool) (q : List α) (h : q ≠ []) :
    q.Perm ((if bf then q.head h else q.getLast h) :: (if bf then q.tail else q.dropLast)) := by
  cases bf
  · simp only [Bool.false_eq_true, if_false]
    have h1 : q.dropLast ++ [q.getLast h] = q := List.dropLast_append_getLast h
    have h2 : (q.dropLast ++ [q.getLast h]).Perm (q.getLast h :: q.dropLast) :=
      List.perm_append_singleton _ _
    have h3 : q.Perm (q.dropLast ++ [q.getLast h]) := by
      rw [h1]
    exact h3.trans h2
  · simp only [eq_self_iff_true, if_true]
    rw [List.head_cons_tail q h]

theorem sortStep_eq (g : Graph α) (bf : Bool) (s : SortState α) (h : s.queue ≠ [])
    (hnd : g.edges.Nodup) :
    sortStep g bf s h =
      ⟨s.sorted ++ [if bf then s.queue.head h else s.queue.getLast h],
       (fun x => if x ∈ g.neighbors (if bf then s.queue.head h else s.queue.getLast h)
          then s.counts x - 1 else s.counts x),
       (if bf then s.queue.tail else s.queue.dropLast) ++
         (g.neighbors (if bf then s.queue.head h else s.queue.getLast h)).filter
           (fun x => s.counts x == 1)⟩ := by
  unfold sortStep
  show (⟨s.sorted ++ [if bf then s.queue.head h else s.queue.getLast h],
      (reduce_inbound_connections s.counts
        (g.neighbors (if bf then s.queue.head h else s.queue.getLast h))).1,
      (if bf then s.queue.tail else s.queue.dropLast) ++
        (reduce_inbound_connections s.counts
          (g.neighbors (if bf then s.queue.head h else s.queue.getLast h))).2⟩ : SortState α) = _
  rw [reduce_fold _ _ (neighbors_nodup g hnd _)]

theorem sortInv_step (g : Graph α) (bf : Bool) (s : SortState α) (hwf : WF g)
    (hinv : SortInv g s) (h : s.queue ≠ []) : SortInv g (sortStep g bf s h) := by
  obtain ⟨hnodes, hnde, hends⟩ := hwf
  rw [sortStep_eq g bf s h hnde]
  set current := if bf then s.queue.head h else s.queue.getLast h with hcurdef
  set rest := if bf then s.queue.tail else s.queue.dropLast with hrestdef
  have hqperm : s.queue.Perm (current :: rest) := queue_decomp bf s.queue h
  have hqmem : ∀ x, x ∈ s.queue ↔ (x = current ∨ x ∈ rest) := by
    intro x
    rw [hqperm.mem_iff, List.mem_cons]
  have hqnodup : (current :: rest).Nodup := hqperm.nodup hinv.queue_nodup
  have hcur_notin_rest : current ∉ rest := (List.nodup_cons.mp hqnodup).1
  have hrest_nodup : rest.Nodup := (List.nodup_cons.mp hqnodup).2
  have hcurq : current ∈ s.queue := (hqmem current).mpr (Or.inl rfl)
  have hrest_sub : ∀ x ∈ rest, x ∈ s.queue := fun x hx => (hqmem x).mpr (Or.inr hx)
  have hcur_node : current ∈ g.nodes := hinv.queue_sub current hcurq
  have hcur_not_sorted : current ∉ s.sorted := hinv.disj current hcurq
  have hcur_count : s.counts current = 0 := ((hinv.queue_char current hcur_node).mp hcurq).2
  have hcur_pending : pendingInto g s.sorted current = 0 := by
    have hc := hinv.counts_eq current
    omega
  set ns := g.neighbors current with hnsdef
  have hns_mem : ∀ x, x ∈ ns ↔ (current, x) ∈ g.edges := fun x => mem_neighbors g current x
  have hns_nodup : ns.Nodup := neighbors_nodup g hnde current
  set newReady := ns.filter (fun x => s.counts x == 1) with hnrdef
  have hnr_mem : ∀ x, x ∈ newReady ↔ (x ∈ ns ∧ s.counts x = 1) := by
    intro x
    rw [hnrdef, List.mem_filter]
    simp
  have hnr_nodup : newReady.Nodup := hns_nodup.filter _
  have hpend : ∀ n, pendingInto g s.sorted n
      = pendingInto g (s.sorted ++ [current]) n + (if (current, n) ∈ g.edges then 1 else 0) :=
    pendingInto_split g hnde s.sorted current hcur_not_sorted
  have hcounts' : ∀ n, (if n ∈ ns then s.counts n - 1 else s.counts n)
      = (pendingInto g (s.sorted ++ [current]) n : Int) := by
    intro n
    have hc := hinv.counts_eq n
    have hp := hpend n
    by_cases hn : n ∈ ns
    · rw [if_pos hn]
      rw [if_pos ((hns_mem n).mp hn)] at hp
      omega
    · rw [if_neg hn]
      rw [if_neg (fun hh => hn ((hns_mem n).mpr hh))] at hp
      omega
  refine ⟨?_, ?_, ?_, ?_, ?_, ?_, ?_, ?_, ?_⟩ <;> (try dsimp only)
  · -- sorted_sub
    intro x hx
    rcases List.mem_append.mp hx with hx | hx
    · exact hinv.sorted_sub x hx
    · rw [List.mem_singleton] at hx
      rw [hx]
      exact hcur_node
  · -- queue_sub
    intro x hx
    rcases List.mem_append.mp hx with hx | hx
    · exact hinv.queue_sub x (hrest_sub x hx)
    · exact (hends _ ((hns_mem x).mp ((hnr_mem x).mp hx).1)).2
  · -- sorted_nodup
    rw [List.nodup_append]
    refine ⟨hinv.sorted_nodup, List.nodup_singleton _, ?_⟩
    intro x hx hx'
    rw [List.mem_singleton] at hx'
    rw [hx'] at hx
    exact hcur_not_sorted hx
  · -- queue_nodup
    rw [List.nodup_append]
    refine ⟨hrest_nodup, hnr_nodup, ?_⟩
    intro x hx hx'
    have hq := hrest_sub x hx
    have h0 := ((hinv.queue_char x (hinv.queue_sub x hq)).mp hq).2
    have h1 := ((hnr_mem x).mp hx').2
    omega
  · -- disj
    intro x hx
    rcases List.mem_append.mp hx with hx | hx
    · intro hmem
      rcases List.mem_append.mp hmem with hs | hs
      · exact hinv.disj x (hrest_sub x hx) hs
      · rw [List.mem_singleton] at hs
        exact hcur_notin_rest (hs ▸ hx)
    · obtain ⟨hxns, hx1⟩ := (hnr_mem x).mp hx
      intro hmem
      rcases List.mem_append.mp hmem with hs | hs
      · have hp := hinv.sorted_pending x hs
        have hc := hinv.counts_eq x
        omega
      · rw [List.mem_singleton] at hs
        rw [hs] at hx1
        omega
  · -- counts_eq
    intro n
    exact hcounts' n
  · -- queue_char
    intro n hn
    constructor
    · intro hmem
      rcases List.mem_append.mp hmem with hx | hx
      · have hq := hrest_sub n hx
        have h0 := ((hinv.queue_char n hn).mp hq).2
        have hnotns : n ∉ ns := by
          intro hns'
          have hpos := pendingInto_pos g s.sorted current n ((hns_mem n).mp hns') hcur_not_sorted
          have hc := hinv.counts_eq n
          omega
        refine ⟨?_, ?_⟩
        · intro hmem'
          rcases List.mem_append.mp hmem' with hs | hs
          · exact ((hinv.queue_char n hn).mp hq).1 hs
          · rw [List.mem_singleton] at hs
            exact hcur_notin_rest (hs ▸ hx)
        · show (if n ∈ ns then s.counts n - 1 else s.counts n) = 0
          rw [if_neg hnotns]
          exact h0
      · obtain ⟨hxns, hx1⟩ := (hnr_mem n).mp hx
        refine ⟨?_, ?_⟩
        · intro hmem'
          rcases List.mem_append.mp hmem' with hs | hs
          · have hp := hinv.sorted_pending n hs
            have hc := hinv.counts_eq n
            omega
          · rw [List.mem_singleton] at hs
            rw [hs] at hx1
            omega
        · show (if n ∈ ns then s.counts n - 1 else s.counts n) = 0
          rw [if_pos hxns]
          omega
    · rintro ⟨hnots, h0⟩
      have h0' : (if n ∈ ns then s.counts n - 1 else s.counts n) = 0 := h0
      rw [List.mem_append]
      by_cases hns' : n ∈ ns
      · right
        rw [hnr_mem]
        rw [if_pos hns'] at h0'
        exact ⟨hns', by omega⟩
      · left
        rw [if_neg hns'] at h0'
        have hnsorted : n ∉ s.sorted := fun hs => hnots (List.mem_append.mpr (Or.inl hs))
        have hq : n ∈ s.queue := (hinv.queue_char n hn).mpr ⟨hnsorted, h0'⟩
        rcases (hqmem n).mp hq with hc | hr
        · exact absurd (List.mem_append.mpr (Or.inr (by rw [hc]; exact List.mem_singleton.mpr rfl)))
            hnots
        · exact hr
  · -- sorted_pending
    intro n hmem
    have hle : pendingInto g (s.sorted ++ [current]) n ≤ pendingInto g s.sorted n :=
      pendingInto_mono g _ _ (fun x hx => List.mem_append.mpr (Or.inl hx)) n
    rcases List.mem_append.mp hmem with hs | hs
    · have hp := hinv.sorted_pending n hs
      omega
    · rw [List.mem_singleton] at hs
      subst hs
      omega
  · -- ordered
    intro d n hedge hmem
    rcases List.mem_append.mp hmem with hs | hs
    · exact (hinv.ordered d n hedge hs).trans (List.sublist_append_left _ _)
    · rw [List.mem_singleton] at hs
      subst hs
      have hd_sorted : d ∈ s.sorted := by
        by_contra hd
        have hpos := pendingInto_pos g s.sorted d current hedge hd
        omega
      have h1 : [d].Sublist s.sorted := List.singleton_sublist.mpr hd_sorted
      have h2 := List.Sublist.append h1 (List.Sublist.refl [current])
      simpa using h2

theorem sortInv_init (g : Graph α) (hwf : WF g) : SortInv g (initSortState g) := by
  obtain ⟨hnodes, hnde, hends⟩ := hwf
  have hcounts : ∀ n, init_inbound_counts g.nodes g.edges n = (pendingInto g [] n : Int) := by
    intro n
    rw [init_inbound_counts_eq]
    unfold pendingInto
    congr 1
    apply List.countP_congr
    intro e he
    simp
  refine ⟨?_, ?_, ?_, ?_, ?_, ?_, ?_, ?_, ?_⟩ <;> (try dsimp only [initSortState])
  · intro x hx
    exact absurd hx (List.not_mem_nil x)
  · intro x hx
    exact (List.mem_filter.mp hx).1
  · exact List.nodup_nil
  · exact hnodes.filter _
  · intro x hx hx'
    exact absurd hx' (List.not_mem_nil x)
  · exact hcounts
  · intro n hn
    rw [init_ready_queue, List.mem_filter]
    constructor
    · rintro ⟨_, hpred⟩
      exact ⟨fun hh => absurd hh (List.not_mem_nil n), by simpa using hpred⟩
    · rintro ⟨_, h0⟩
      exact ⟨hn, by simpa using h0⟩
  · intro n hmem
    exact absurd hmem (List.not_mem_nil n)
  · intro d n hedge hmem
    exact absurd hmem (List.not_mem_nil n)

theorem sortLoop_master (g : Graph α) (bf : Bool) (hwf : WF g) :
    ∀ (fuel : Nat) (s : SortState α), SortInv g s →
      g.nodes.length + 1 ≤ fuel + s.sorted.length →
      SortInv g (sortLoop g bf fuel s) ∧ (sortLoop g bf fuel s).queue = [] := by
  intro fuel
  induction fuel with
  | zero =>
    intro s hinv hle
    exfalso
    have h1 : s.sorted.length ≤ g.nodes.length :=
      (hinv.sorted_nodup.subperm fun x hx => hinv.sorted_sub x hx).length_le
    omega
  | succ fuel ih =>
    intro s hinv hle
    simp only [sortLoop]
    by_cases hq : s.queue = []
    · rw [dif_pos hq]
      exact ⟨hinv, hq⟩
    · rw [dif_neg hq]
      apply ih
      · exact sortInv_step g bf s hwf hinv hq
      · have hlen : (sortStep g bf s hq).sorted.length = s.sorted.length + 1 := by
          rw [sortStep_eq g bf s hq hwf.2.1]
          simp
        omega

theorem sortLoop_queue_empty (g : Graph α) (bf : Bool) (fuel : Nat) (s : SortState α)
    (h : s.queue = []) : sortLoop g bf fuel s = s := by
  cases fuel
  · rfl
  · simp only [sortLoop]
    rw [dif_pos h]

theorem sortLoop_add (g : Graph α) (bf : Bool) (f1 f2 : Nat) (s : SortState α) :
    sortLoop g bf (f1 + f2) s = sortLoop g bf f2 (sortLoop g bf f1 s) := by
  induction f1 generalizing s with
  | zero =>
    rw [Nat.zero_add]
    rfl
  | succ f1 ih =>
    by_cases hq : s.queue = []
    · rw [sortLoop_queue_empty g bf (f1 + 1) s hq,
        show f1 + 1 + f2 = (f1 + f2) + 1 from by omega,
        sortLoop_queue_empty g bf ((f1 + f2) + 1) s hq,
        sortLoop_queue_empty g bf f2 s hq]
    · rw [show f1 + 1 + f2 = (f1 + f2) + 1 from by omega]
      simp only [sortLoop]
      rw [dif_neg hq, dif_neg hq]
      exact ih (sortStep g bf s hq)

theorem sortRun_complete (g : Graph α) (bf : Bool) (hwf : WF g) (hacyc : Acyclic g) :
    ∀ n ∈ g.nodes, n ∈ (sortRun g bf).sorted := by
  have hmaster := sortLoop_master g bf hwf (g.nodes.length + 1) (initSortState g)
      (sortInv_init g hwf) (by simp [initSortState])
  have hinv : SortInv g (sortRun g bf) := hmaster.1
  have hqempty : (sortRun g bf).queue = [] := hmaster.2
  intro n hn
  by_contra hns
  set F := sortRun g bf with hF
  set U := g.nodes.filter (fun x => decide (x ∉ F.sorted)) with hU
  have hUmem : ∀ x, x ∈ U ↔ (x ∈ g.nodes ∧ x ∉ F.sorted) := by
    intro x
    rw [hU, List.mem_filter]
    simp
  have hnU : n ∈ U := (hUmem n).mpr ⟨hn, hns⟩
  have hstep : ∀ u ∈ U, ∃ d, d ∈ U ∧ (d, u) ∈ g.edges := by
    intro u hu
    obtain ⟨hun, hus⟩ := (hUmem u).mp hu
    have hchar := hinv.queue_char u hun
    have hnotq : u ∉ F.queue := by
      rw [hqempty]
      exact List.not_mem_nil u
    have hcount : ¬ (F.counts u = 0) := fun h0 => hnotq (hchar.mpr ⟨hus, h0⟩)
    have hceq := hinv.counts_eq u
    have hpos : 0 < pendingInto g F.sorted u := by omega
    rw [pendingInto, List.countP_pos_iff] at hpos
    obtain ⟨e, he, hpe⟩ := hpos
    simp only [Bool.and_eq_true, decide_eq_true_eq] at hpe
    obtain ⟨h2, h1⟩ := hpe
    refine ⟨e.1, (hUmem e.1).mpr ⟨(hwf.2.2 e he).1, h1⟩, ?_⟩
    obtain ⟨a, b⟩ := e
    simp only at h2
    rw [h2] at he
    exact he
  have hchoice : ∀ (u : {x // x ∈ U}), ∃ (d : {x // x ∈ U}), (d.1, u.1) ∈ g.edges := by
    intro u
    obtain ⟨d, hdU, hde⟩ := hstep u.1 u.2
    exact ⟨⟨d, hdU⟩, hde⟩
  choose next hnext using hchoice
  have hwalk : ∃ (f : Nat → {x // x ∈ U}), ∀ k, ((f (k + 1)).1, (f k).1) ∈ g.edges := by
    refine ⟨fun k => Nat.rec ⟨n, hnU⟩ (fun _ prev => next prev) k, ?_⟩
    intro k
    exact hnext _
  obtain ⟨f, hedge⟩ := hwalk
  have hmaps : ∀ i : Fin (U.length + 1), (f i.1).1 ∈ U.toFinset :=
    fun i => List.mem_toFinset.mpr (f i.1).2
  have hcard : U.toFinset.card < (Finset.univ : Finset (Fin (U.length + 1))).card := by
    rw [Finset.card_univ, Fintype.card_fin]
    exact Nat.lt_succ_of_le U.toFinset_card_le
  obtain ⟨x, _, y, _, hxy, hfxy⟩ :=
    Finset.exists_ne_map_eq_of_card_lt_of_maps_to hcard (fun i _ => hmaps i)
  have hkey : ∃ i j : Nat, i < j ∧ (f i).1 = (f j).1 := by
    rcases Nat.lt_trichotomy x.1 y.1 with hlt | heq | hgt
    · exact ⟨x.1, y.1, hlt, hfxy⟩
    · exact absurd (Fin.ext heq) hxy
    · exact ⟨y.1, x.1, hgt, hfxy.symm⟩
  obtain ⟨i, j, hij, hv⟩ := hkey
  apply hacyc
  refine ⟨j - i, fun t => (f (j - t)).1, by omega, ?_, ?_⟩
  · show (f (j - (j - i))).1 = (f (j - 0)).1
    have h1 : j - (j - i) = i := by omega
    rw [h1, Nat.sub_zero]
    exact hv
  · intro k hk
    show ((f (j - k)).1, (f (j - (k + 1))).1) ∈ g.edges
    have h1 : j - k = (j - (k + 1)) + 1 := by omega
    rw [h1]
    exact hedge (j - (k + 1))

/-- C1: for every wellformed acyclic graph and both tie-break policies,
every edge (d, n) is respected: d appears strictly before n in the
sequence returned by topological_sort. -/
theorem topological_sort_respects_edges (g : Graph α) (bf : Bool)
    (hwf : WF g) (hacyc : Acyclic g) :
    ∀ d n, (d, n) ∈ g.edges → [d, n].Sublist (topological_sort g bf) := by
  have hmaster := sortLoop_master g bf hwf (g.nodes.length + 1) (initSortState g)
      (sortInv_init g hwf) (by simp [initSortState])
  have hinv : SortInv g (sortRun g bf) := hmaster.1
  intro d n he
  exact hinv.ordered d n he
    (sortRun_complete g bf hwf hacyc n (hwf.2.2 _ he).2)

/-- C1 witness: edge A→B of the diamond graph is respected by the FIFO
ordering. -/
theorem topological_sort_respects_edges_witness :
    [0, 1].Sublist (topological_sort diamondGraph true) :=
  topological_sort_respects_edges diamondGraph true (by unfold WF; decide)
    (acyclic_of_rank diamondGraph id (by decide)) 0 1 (by decide)

/-- C3: for every wellformed acyclic graph and both tie-break policies,
the sequence returned by topological_sort contains every node of the graph
exactly once. -/
theorem topological_sort_perm_nodes (g : Graph α) (bf : Bool)
    (hwf : WF g) (hacyc : Acyclic g) :
    (topological_sort g bf).Perm g.nodes := by
  have hmaster := sortLoop_master g bf hwf (g.nodes.length + 1) (initSortState g)
      (sortInv_init g hwf) (by simp [initSortState])
  have hinv : SortInv g (sortRun g bf) := hmaster.1
  have h1 : (sortRun g bf).sorted.Subperm g.nodes :=
    hinv.sorted_nodup.subperm fun x hx => hinv.sorted_sub x hx
  have h2 : g.nodes.Subperm (sortRun g bf).sorted :=
    hwf.1.subperm fun x hx => sortRun_complete g bf hwf hacyc x hx
  exact h1.antisymm h2

/-- C3 witness: the LIFO ordering of the diamond graph is a permutation of
its node list. -/
theorem topological_sort_perm_nodes_witness :
    (topological_sort diamondGraph false).Perm diamondGraph.nodes :=
  topological_sort_perm_nodes diamondGraph false (by unfold WF; decide)
    (acyclic_of_rank diamondGraph id (by decide))

/-- C10: for every wellformed graph, cyclic or not, the sorter terminates
(the loop reaches the empty ready queue within its fuel, and extra fuel
does not change the run), its output has no duplicates, and the emitted
nodes are exactly the nodes whose tracked in-degree is zero at the end of
the run. -/
theorem topological_sort_terminates (g : Graph α) (bf : Bool) (hwf : WF g) :
    (sortRun g bf).queue = [] ∧
    (∀ extra : Nat, sortLoop g bf (g.nodes.length + 1 + extra) (initSortState g)
      = sortRun g bf) ∧
    (topological_sort g bf).Nodup ∧
    (∀ n, n ∈ topological_sort g bf ↔ n ∈ g.nodes ∧ (sortRun g bf).counts n = 0) := by
  have hmaster := sortLoop_master g bf hwf (g.nodes.length + 1) (initSortState g)
      (sortInv_init g hwf) (by simp [initSortState])
  have hinv : SortInv g (sortRun g bf) := hmaster.1
  have hq : (sortRun g bf).queue = [] := hmaster.2
  refine ⟨hq, ?_, hinv.sorted_nodup, ?_⟩
  · intro extra
    rw [sortLoop_add g bf (g.nodes.length + 1) extra (initSortState g)]
    exact sortLoop_queue_empty g bf extra _ hq
  · intro n
    constructor
    · intro hmem
      have hn := hinv.sorted_sub n hmem
      have hp := hinv.sorted_pending n hmem
      have hc := hinv.counts_eq n
      exact ⟨hn, by omega⟩
    · rintro ⟨hn, h0⟩
      by_contra hns
      have hmem := (hinv.queue_char n hn).mpr ⟨hns, h0⟩
      rw [hq] at hmem
      exact absurd hmem (List.not_mem_nil n)

/-- C10 witness: on the two-node cyclic graph the run still ends with an
empty queue and a duplicate-free output. -/
theorem topological_sort_terminates_witness :
    (sortRun cycleGraph true).queue = [] ∧ (topological_sort cycleGraph true).Nodup :=
  ⟨(topological_sort_terminates cycleGraph true (by unfold WF; decide)).1,
   (topological_sort_terminates cycleGraph true (by unfold WF; decide)).2.2.1⟩

/-- C4: on the diamond graph with construction order A,B,C,D and edges
A→B, A→C, B→D, C→D, the breadth-first (FIFO) policy returns A,B,C,D and
the depth-first-like (LIFO) policy returns A,C,B,D. -/
theorem diamond_tie_break :
    topological_sort diamondGraph true = [0, 1, 2, 3] ∧
    topological_sort diamondGraph false = [0, 2, 1, 3] := by
  constructor <;> rfl

/-- C2 evaluation: on the two-node cycle, topological_sort returns normally
with the partial (here empty) ordering under both policies; the code has no
error path and no CycleError is raised. -/
theorem cycle_returns_partial_order :
    topological_sort cycleGraph true = [] ∧
    topological_sort cycleGraph false = [] ∧
    cycleGraph.nodes.length = 2 := by
  refine ⟨rfl, rfl, rfl⟩

/-- The kinds of Requirement subclasses. -/
inductive ReqKind
  | createAccount
  | adminAccess
  | cloudTrailSNSTopic
  | cloudTrailTrail
  | s3Bucket
  | sqsQueue
deriving DecidableEq

/-- A Requirement: a label for display, the targeted account, and the
subclass tag selecting the dependency behaviour.  Every Requirement the
builder constructs has a distinct label, so structural equality coincides
with Python object identity on the built graph. -/
structure Requirement where
  label : String
  account : String
  kind : ReqKind
deriving DecidableEq

/-- get_dependencies of each Requirement subclass: a filter of the full
requirement list, translated clause by clause from the isinstance checks
of the six subclasses. -/
def get_dependencies (r : Requirement) (requirements : List Requirement) :
    List Requirement :=
  match r.kind with
  | ReqKind.createAccount => []
  | ReqKind.adminAccess =>
      requirements.filter (fun q =>
        decide (q.kind = ReqKind.createAccount ∧ q.account = r.account))
  | ReqKind.cloudTrailSNSTopic =>
      requirements.filter (fun q =>
        decide ((q.kind = ReqKind.createAccount ∧ q.account = "syslog")
          ∨ (q.kind = ReqKind.adminAccess ∧ q.account = r.account)))
  | ReqKind.cloudTrailTrail =>
      requirements.filter (fun q =>
        decide ((q.kind = ReqKind.s3Bucket ∧ q.account = "syslog")
          ∨ (q.kind = ReqKind.cloudTrailSNSTopic ∧ q.account = r.account)))
  | ReqKind.s3Bucket =>
      requirements.filter (fun q =>
        decide ((q.kind = ReqKind.createAccount ∧ q.account ≠ r.account)
          ∨ (q.kind = ReqKind.adminAccess ∧ q.account = r.account)))
  | ReqKind.sqsQueue =>
      requirements.filter (fun q =>
        decide ((q.kind = ReqKind.cloudTrailSNSTopic ∧ q.account ≠ r.account)
          ∨ (q.kind = ReqKind.adminAccess ∧ q.account = r.account)))

/-- The four syslog-account requirements, in construction order. -/
def syslogRequirements : List Requirement :=
  [⟨"Create [Syslog]", "syslog", ReqKind.createAccount⟩,
   ⟨"Admin Access [Syslog]", "syslog", ReqKind.adminAccess⟩,
   ⟨"S3 Bucket [Syslog]", "syslog", ReqKind.s3Bucket⟩,
   ⟨"SQS Queue [Syslog]", "syslog", ReqKind.sqsQueue⟩]

/-- The four requirements of one PDU account, in construction order. -/
def pduRequirements (n : Nat) : List Requirement :=
  [⟨"Create [PDU" ++ toString n ++ "]", "PDU" ++ toString n, ReqKind.createAccount⟩,
   ⟨"Admin Access [PDU" ++ toString n ++ "]", "PDU" ++ toString n, ReqKind.adminAccess⟩,
   ⟨"CloudTrail SNS [PDU" ++ toString n ++ "]", "PDU" ++ toString n,
     ReqKind.cloudTrailSNSTopic⟩,
   ⟨"CloudTrail Trail [PDU" ++ toString n ++ "]", "PDU" ++ toString n,
     ReqKind.cloudTrailTrail⟩]

/-- all_requirements as accumulated by build_graph: the syslog block
followed by the blocks of PDU accounts 1 .. num_accounts. -/
def all_requirements (num_accounts : Nat) : List Requirement :=
  syslogRequirements ++ (List.range' 1 num_accounts).flatMap pduRequirements

/-- Insert a value at the back of a node list unless it is already present,
as the networkx node dict does on add_node and add_edge. -/
def addNode (nodes : List α) (r : α) : List α :=
  if r ∈ nodes then nodes else nodes ++ [r]

/-- The node list of the built DiGraph in real insertion order: for each
requirement in construction order, add_node inserts it if new, then each
add_edge from one of its dependencies inserts that dependency if it is not
yet a node (dependency functions may name requirements constructed later,
so this order differs from construction order once PDU accounts exist). -/
def build_graph_nodes (reqs : List Requirement) : List Requirement :=
  reqs.foldl
    (fun nodes req => (get_dependencies req reqs).foldl addNode (addNode nodes req)) []

/-- build_graph: add every requirement as a node in construction order and,
for each requirement in that same order, one edge per element of its
dependency list evaluated against the complete requirement list; add_edge
also inserts the dependency as a node when it is new.  Edges are listed in
add_edge order, the order the networkx adjacency records them. -/
def build_graph (num_accounts : Nat) : Graph Requirement :=
  { nodes := build_graph_nodes (all_requirements num_accounts)
    edges := (all_requirements num_accounts).flatMap
      (fun req => (get_dependencies req (all_requirements num_accounts)).map
        (fun dep => (dep, req))) }

/-- With one PDU account, the node insertion order interleaves the blocks:
add_edge pulls Create [PDU1] in while the syslog S3 bucket's edges are
recorded and CloudTrail SNS [PDU1] in during the syslog SQS queue's, ahead
of their own construction turns. -/
theorem build_graph_nodes_one :
    (build_graph 1).nodes.map Requirement.label =
      ["Create [Syslog]", "Admin Access [Syslog]", "S3 Bucket [Syslog]",
       "Create [PDU1]", "SQS Queue [Syslog]", "CloudTrail SNS [PDU1]",
       "Admin Access [PDU1]", "CloudTrail Trail [PDU1]"] := by
  rfl

theorem get_dependencies_subset (r : Requirement) (reqs : List Requirement) :
    ∀ x ∈ get_dependencies r reqs, x ∈ reqs := by
  intro x hx
  unfold get_dependencies at hx
  cases hk : r.kind <;> rw [hk] at hx
  · exact absurd hx (List.not_mem_nil x)
  all_goals exact (List.mem_filter.mp hx).1

theorem addNode_mem (nodes : List α) (r x : α) :
    x ∈ addNode nodes r ↔ x ∈ nodes ∨ x = r := by
  unfold addNode
  by_cases hr : r ∈ nodes
  · rw [if_pos hr]
    constructor
    · exact Or.inl
    · rintro (h | h)
      · exact h
      · exact h ▸ hr
  · rw [if_neg hr]
    simp [List.mem_append]

theorem foldl_addNode_mem (l : List α) :
    ∀ (acc : List α) (x : α), x ∈ l.foldl addNode acc ↔ x ∈ acc ∨ x ∈ l := by
  induction l with
  | nil =>
    intro acc x
    simp
  | cons a t ih =>
    intro acc x
    rw [List.foldl_cons, ih, addNode_mem, List.mem_cons]
    tauto

theorem build_graph_nodes_mem (reqs : List Requirement) (x : Requirement) :
    x ∈ build_graph_nodes reqs ↔ x ∈ reqs := by
  unfold build_graph_nodes
  have key : ∀ (l acc : List Requirement),
      x ∈ l.foldl
          (fun nodes req => (get_dependencies req reqs).foldl addNode (addNode nodes req))
          acc
        ↔ x ∈ acc ∨ ∃ r ∈ l, x = r ∨ x ∈ get_dependencies r reqs := by
    intro l
    induction l with
    | nil =>
      intro acc
      simp
    | cons a t ih =>
      intro acc
      rw [List.foldl_cons, ih, foldl_addNode_mem, addNode_mem]
      simp only [List.mem_cons]
      constructor
      · rintro (((h | h) | h) | ⟨r, hr, h⟩)
        · exact Or.inl h
        · exact Or.inr ⟨a, Or.inl rfl, Or.inl h⟩
        · exact Or.inr ⟨a, Or.inl rfl, Or.inr h⟩
        · exact Or.inr ⟨r, Or.inr hr, h⟩
      · rintro (h | ⟨r, (hr | hr), h⟩)
        · exact Or.inl (Or.inl (Or.inl h))
        · rcases h with h | h
          · exact Or.inl (Or.inl (Or.inr (hr ▸ h)))
          · exact Or.inl (Or.inr (hr ▸ h))
        · exact Or.inr ⟨r, hr, h⟩
  rw [key reqs []]
  constructor
  · rintro (h | ⟨r, hr, h | h⟩)
    · exact absurd h (List.not_mem_nil x)
    · exact h ▸ hr
    · exact get_dependencies_subset r reqs x h
  · intro hx
    exact Or.inr ⟨x, hx, Or.inl rfl⟩

/-- C5: the built graph has an edge (d, n) exactly when d is in the
dependency list that n's dependency function computes from the complete
requirement list, and its nodes are exactly the constructed requirements;
each node's dependency function is applied once, to the full list,
uniformly for every node. -/
theorem build_graph_edges (num_accounts : Nat) :
    (∀ x : Requirement,
      x ∈ (build_graph num_accounts).nodes ↔ x ∈ all_requirements num_accounts) ∧
    ∀ d n : Requirement,
      ((d, n) ∈ (build_graph num_accounts).edges ↔
        n ∈ all_requirements num_accounts ∧
          d ∈ get_dependencies n (all_requirements num_accounts)) := by
  refine ⟨fun x => build_graph_nodes_mem (all_requirements num_accounts) x, ?_⟩
  intro d n
  simp only [build_graph]
  rw [List.mem_flatMap]
  constructor
  · rintro ⟨req, hreq, hmem⟩
    rw [List.mem_map] at hmem
    obtain ⟨dep, hdep, heq⟩ := hmem
    have h1 : dep = d := congrArg Prod.fst heq
    have h2 : req = n := congrArg Prod.snd heq
    subst h1
    subst h2
    exact ⟨hreq, hdep⟩
  · rintro ⟨hn, hd⟩
    exact ⟨n, hn, List.mem_map.mpr ⟨d, hd, rfl⟩⟩

/-- run_serially: invoke the work function on each node of the given
ordering strictly in sequence, keying each return value by its node in
iteration order; a raising work function (modelled by none) propagates
immediately and no later node is processed. -/
def run_serially : List α → (α → Option β) → Option (List (α × β))
  | [], _ => some []
  | node :: rest, f =>
    match f node with
    | none => none
    | some result =>
      match run_serially rest f with
      | none => none
      | some results => some ((node, result) :: results)

theorem run_serially_all_some (f : α → β) :
    ∀ (ord : List α) (work : α → Option β), (∀ m ∈ ord, work m = some (f m)) →
      run_serially ord work = some (ord.map (fun m => (m, f m))) := by
  intro ord
  induction ord with
  | nil =>
    intro work h
    rfl
  | cons a t ih =>
    intro work h
    have h1 := h a (List.mem_cons_self a t)
    have h2 := ih work (fun m hm => h m (List.mem_cons_of_mem a hm))
    simp [run_serially, h1, h2]

/-- C9: when the work function succeeds on every node, run_serially maps
the ordering in sequence to node/result pairs; when it raises at node n,
the failure propagates immediately (the result is none for every possible
suffix after n, so no later node's work is consulted). -/
theorem run_serially_spec (ord pre post : List α) (n : α)
    (work : α → Option β) (f : α → β) :
    ((∀ m ∈ ord, work m = some (f m)) →
      run_serially ord work = some (ord.map (fun m => (m, f m)))) ∧
    (work n = none → run_serially (pre ++ n :: post) work = none) := by
  constructor
  · exact run_serially_all_some f ord work
  · intro hn
    induction pre with
    | nil =>
      simp [run_serially, hn]
    | cons a t ih =>
      cases hwa : work a with
      | none => simp [List.cons_append, run_serially, hwa]
      | some v => simp [List.cons_append, run_serially, hwa, ih]

/-- C9 witness: a two-node all-success run stores both results in order,
and a run whose middle node raises returns no result map. -/
theorem run_serially_spec_witness :
    run_serially [0, 1] (fun m => some (m + 1)) = some [(0, 1), (1, 2)] ∧
    run_serially [0, 1, 2] (fun m => if m = 1 then none else some 7) = none := by
  constructor
  · have h := (run_serially_spec [0, 1] [] [] 0 (fun m => some (m + 1))
      (fun m => m + 1)).1 (by intro m hm; rfl)
    simpa using h
  · exact (run_serially_spec [] [0] [2] 1 (fun m => if m = 1 then none else some 7)
      (fun _ => 0)).2 rfl

theorem mem_take_iff_get (l : List α) (m : Nat) (x : α) :
    x ∈ l.take m ↔ ∃ k : Fin l.length, k.1 < m ∧ l.get k = x := by
  rw [List.mem_take_iff_getElem]
  constructor
  · rintro ⟨i, hm, hget⟩
    have hi : i < l.length := lt_of_lt_of_le hm (min_le_right _ _)
    exact ⟨⟨i, hi⟩, lt_of_lt_of_le hm (min_le_left _ _),
      by simpa [List.get_eq_getElem] using hget⟩
  · rintro ⟨k, hk, hget⟩
    exact ⟨k.1, lt_min hk k.2, by simpa [List.get_eq_getElem] using hget⟩

theorem take_succ_get (l : List α) (i : Nat) (h : i < l.length) :
    l.take (i + 1) = l.take i ++ [l.get ⟨i, h⟩] := by
  rw [List.take_succ, List.getElem?_eq_getElem h]
  simp [List.get_eq_getElem]

theorem get_not_mem_take (l : List α) (hnd : l.Nodup) (i : Nat) (h : i < l.length) :
    l.get ⟨i, h⟩ ∉ l.take i := by
  intro hmem
  obtain ⟨k, hk, hkget⟩ := (mem_take_iff_get l i _).mp hmem
  have hki : k = ⟨i, h⟩ := hnd.get_inj_iff.mp hkget
  rw [hki] at hk
  exact absurd hk (lt_irrefl i)

/-- State of run_concurrently, seen across the dispatch thread and the
worker threads of the pool: how many entries of sorted_nodes the dispatch
loop has submitted, the submitted-but-not-yet-started task queue of the
executor, the work functions currently executing, the nodes of the
in_progress dict (futures registered and not yet completed-and-handled),
and the results dict as an association list in completion order. -/
structure ConcState (α β : Type) where
  dispatched : Nat
  pool : List α
  running : List α
  in_progress : List α
  results : List (α × β)

/-- The state before the dispatch loop begins. -/
def initConcState : ConcState α β := ⟨0, [], [], [], []⟩

/-- The observable events of run_concurrently. -/
inductive ConcEvent (α : Type)
  | dispatch
  | start (n : α)
  | finish (n : α)

/-- Labelled transitions of run_concurrently.

dispatch: wait_on_predecessors observes no predecessor of the next node in
the in_progress dict, so the dispatch thread submits the node to the pool,
registers its future in in_progress and attaches the done-callback before
touching the next node.  start: a pool worker (at most four run at once,
in submission order) begins executing a submitted work function.  finish:
a work function completes and the worker runs handle_done; on success the
result is recorded and the future deleted from in_progress, while a raise
inside future.result() aborts the callback before either write, leaving
results and in_progress untouched. -/
inductive ConcStep (g : Graph α) (sorted_nodes : List α) (work : α → Option β) :
    ConcState α β → ConcEvent α → ConcState α β → Prop
  | dispatch (s : ConcState α β) (h : s.dispatched < sorted_nodes.length)
      (hwait : ∀ d, (d, sorted_nodes.get ⟨s.dispatched, h⟩) ∈ g.edges →
        d ∉ s.in_progress) :
      ConcStep g sorted_nodes work s ConcEvent.dispatch
        ⟨s.dispatched + 1,
         s.pool ++ [sorted_nodes.get ⟨s.dispatched, h⟩],
         s.running,
         s.in_progress ++ [sorted_nodes.get ⟨s.dispatched, h⟩],
         s.results⟩
  | start (s : ConcState α β) (n : α) (rest : List α) (hp : s.pool = n :: rest)
      (hcap : s.running.length < 4) :
      ConcStep g sorted_nodes work s (ConcEvent.start n)
        ⟨s.dispatched, rest, s.running ++ [n], s.in_progress, s.results⟩
  | finish_ok (s : ConcState α β) (n : α) (v : β) (hr : n ∈ s.running)
      (hv : work n = some v) :
      ConcStep g sorted_nodes work s (ConcEvent.finish n)
        ⟨s.dispatched, s.pool, s.running.erase n, s.in_progress.erase n,
         s.results ++ [(n, v)]⟩
  | finish_raise (s : ConcState α β) (n : α) (hr : n ∈ s.running)
      (hv : work n = none) :
      ConcStep g sorted_nodes work s (ConcEvent.finish n)
        ⟨s.dispatched, s.pool, s.running.erase n, s.in_progress, s.results⟩

/-- Reachability in zero or more scheduler steps. -/
inductive ConcReaches (g : Graph α) (sorted_nodes : List α) (work : α → Option β)
    (s : ConcState α β) : ConcState α β → Prop
  | refl : ConcReaches g sorted_nodes work s s
  | tail (t u : ConcState α β) (e : ConcEvent α)
      (hst : ConcReaches g sorted_nodes work s t)
      (htu : ConcStep g sorted_nodes work t e u) :
      ConcReaches g sorted_nodes work s u

/-- Topological validity of an ordering, the property run_concurrently
assumes of its input: no duplicates, and the source of every edge whose
target occurs in the ordering occurs strictly earlier. -/
def ValidOrdering (g : Graph α) (ord : List α) : Prop :=
  ord.Nodup ∧ ∀ e ∈ g.edges, ∀ j : Fin ord.length, ord.get j = e.2 →
    ∃ i : Fin ord.length, i.1 < j.1 ∧ ord.get i = e.1

/-- Invariant of the scheduler: the dispatch index stays in range, every
registered node was dispatched, submitted and running nodes are still
registered and pairwise distinct, and no predecessor of any dispatched
node is registered. -/
structure ConcInv (g : Graph α) (ord : List α) (s : ConcState α β) : Prop where
  dispatched_le : s.dispatched ≤ ord.length
  in_progress_sub : ∀ x ∈ s.in_progress, x ∈ ord.take s.dispatched
  pool_running_sub : ∀ x, x ∈ s.pool ++ s.running → x ∈ s.in_progress
  pool_running_nodup : (s.pool ++ s.running).Nodup
  no_pred : ∀ (k : Fin ord.length), k.1 < s.dispatched →
    ∀ d, (d, ord.get k) ∈ g.edges → d ∉ s.in_progress

theorem concInv_init (g : Graph α) (ord : List α) :
    ConcInv g ord (initConcState : ConcState α β) := by
  refine ⟨Nat.zero_le _, ?_, ?_, ?_, ?_⟩
  · intro x hx
    exact absurd hx (List.not_mem_nil x)
  · intro x hx
    exact absurd hx (List.not_mem_nil x)
  · exact List.nodup_nil
  · intro k hk d hd
    exact absurd hk (Nat.not_lt_zero k.1)

theorem concInv_step (g : Graph α) (ord : List α) (work : α → Option β)
    (hord : ValidOrdering g ord) (s s' : ConcState α β) (e : ConcEvent α)
    (hinv : ConcInv g ord s) (hstep : ConcStep g ord work s e s') :
    ConcInv g ord s' := by
  obtain ⟨hnodup, hvalid⟩ := hord
  cases hstep with
  | dispatch h hwait =>
    have hfresh : ord.get ⟨s.dispatched, h⟩ ∉ ord.take s.dispatched :=
      get_not_mem_take ord hnodup s.dispatched h
    have htake := take_succ_get ord s.dispatched h
    have hnoself : ∀ (k : Fin ord.length), k.1 ≤ s.dispatched →
        (ord.get ⟨s.dispatched, h⟩, ord.get k) ∈ g.edges → False := by
      intro k hk hedge
      obtain ⟨i', hi', hget'⟩ := hvalid _ hedge k rfl
      have hii : i' = (⟨s.dispatched, h⟩ : Fin ord.length) := hnodup.get_inj_iff.mp hget'
      have hii' : i'.1 = s.dispatched := by rw [hii]
      omega
    refine ⟨?_, ?_, ?_, ?_, ?_⟩ <;> dsimp only
    · omega
    · intro x hx
      rw [htake]
      rcases List.mem_append.mp hx with hx | hx
      · exact List.mem_append.mpr (Or.inl (hinv.in_progress_sub x hx))
      · exact List.mem_append.mpr (Or.inr hx)
    · intro x hx
      rw [List.append_assoc] at hx
      rcases List.mem_append.mp hx with hx | hx
      · exact List.mem_append.mpr
          (Or.inl (hinv.pool_running_sub x (List.mem_append.mpr (Or.inl hx))))
      · rcases List.mem_cons.mp hx with hx | hx
        · exact List.mem_append.mpr (Or.inr (List.mem_singleton.mpr hx))
        · exact List.mem_append.mpr
            (Or.inl (hinv.pool_running_sub x (List.mem_append.mpr (Or.inr hx))))
    · rw [List.append_assoc]
      rw [show [ord.get ⟨s.dispatched, h⟩] ++ s.running
          = ord.get ⟨s.dispatched, h⟩ :: s.running from rfl]
      rw [List.nodup_middle]
      refine List.nodup_cons.mpr ⟨?_, hinv.pool_running_nodup⟩
      intro hmem
      exact hfresh (hinv.in_progress_sub _ (hinv.pool_running_sub _ hmem))
    · intro k hk d hd hmem
      rcases List.mem_append.mp hmem with hmem | hmem
      · by_cases hkd : k.1 < s.dispatched
        · exact hinv.no_pred k hkd d hd hmem
        · have hkeq : k.1 = s.dispatched := by omega
          have hkfin : k = ⟨s.dispatched, h⟩ := Fin.ext hkeq
          rw [hkfin] at hd
          exact hwait d hd hmem
      · rw [List.mem_singleton] at hmem
        rw [hmem] at hd
        exact hnoself k (by omega) hd
  | start n rest hp hcap =>
    have hmemiff : ∀ x, x ∈ rest ++ (s.running ++ [n]) ↔ x ∈ s.pool ++ s.running := by
      intro x
      rw [hp]
      simp only [List.mem_append, List.mem_cons, List.mem_singleton]
      tauto
    refine ⟨hinv.dispatched_le, hinv.in_progress_sub, ?_, ?_, hinv.no_pred⟩ <;> dsimp only
    · intro x hx
      exact hinv.pool_running_sub x ((hmemiff x).mp hx)
    · have hperm : (rest ++ (s.running ++ [n])).Perm (s.pool ++ s.running) := by
        rw [hp, ← List.append_assoc, List.cons_append]
        exact List.perm_append_singleton n (rest ++ s.running)
      exact hperm.symm.nodup hinv.pool_running_nodup
  | finish_ok n v hr hv =>
    have hpn := hinv.pool_running_nodup
    rw [List.nodup_append] at hpn
    obtain ⟨hpool_nd, hrun_nd, hdisj⟩ := hpn
    refine ⟨hinv.dispatched_le, ?_, ?_, ?_, ?_⟩ <;> dsimp only
    · intro x hx
      exact hinv.in_progress_sub x (List.mem_of_mem_erase hx)
    · intro x hx
      rcases List.mem_append.mp hx with hx | hx
      · have hxn : x ≠ n := fun hh => hdisj hx (hh ▸ hr)
        exact (List.mem_erase_of_ne hxn).mpr
          (hinv.pool_running_sub x (List.mem_append.mpr (Or.inl hx)))
      · obtain ⟨hxn, hxrun⟩ := hrun_nd.mem_erase_iff.mp hx
        exact (List.mem_erase_of_ne hxn).mpr
          (hinv.pool_running_sub x (List.mem_append.mpr (Or.inr hxrun)))
    · have hsub : List.Sublist (s.pool ++ s.running.erase n) (s.pool ++ s.running) :=
        (List.erase_sublist n s.running).append_left s.pool
      exact hinv.pool_running_nodup.sublist hsub
    · intro k hk d hd hmem
      exact hinv.no_pred k hk d hd (List.mem_of_mem_erase hmem)
  | finish_raise n hr hv =>
    refine ⟨hinv.dispatched_le, hinv.in_progress_sub, ?_, ?_, hinv.no_pred⟩ <;> dsimp only
    · intro x hx
      rcases List.mem_append.mp hx with hx | hx
      · exact hinv.pool_running_sub x (List.mem_append.mpr (Or.inl hx))
      · exact hinv.pool_running_sub x
          (List.mem_append.mpr (Or.inr (List.mem_of_mem_erase hx)))
    · have hsub : List.Sublist (s.pool ++ s.running.erase n) (s.pool ++ s.running) :=
        (List.erase_sublist n s.running).append_left s.pool
      exact hinv.pool_running_nodup.sublist hsub

theorem concInv_reachable (g : Graph α) (ord : List α) (work : α → Option β)
    (hord : ValidOrdering g ord) (s : ConcState α β)
    (hreach : ConcReaches g ord work initConcState s) : ConcInv g ord s := by
  induction hreach with
  | refl => exact concInv_init g ord
  | tail t u e hst htu ih => exact concInv_step g ord work hord t u e ih htu

/-- C6: in a run of run_concurrently over a topologically valid ordering,
when a node's work function starts, no predecessor of that node is in the
in_progress set, and in particular no predecessor is still running: nodes
joined by a dependency edge never overlap in execution. -/
theorem run_concurrently_no_overlap (g : Graph α) (ord : List α)
    (work : α → Option β) (s s' : ConcState α β) (n d : α)
    (hord : ValidOrdering g ord)
    (hreach : ConcReaches g ord work initConcState s)
    (hstep : ConcStep g ord work s (ConcEvent.start n) s')
    (hedge : (d, n) ∈ g.edges) :
    d ∉ s.in_progress ∧ d ∉ s.running := by
  have hinv := concInv_reachable g ord work hord s hreach
  cases hstep with
  | start n rest hp hcap =>
    have hn_in : n ∈ s.in_progress :=
      hinv.pool_running_sub n
        (List.mem_append.mpr (Or.inl (by rw [hp]; exact List.mem_cons_self n rest)))
    have hn_take : n ∈ ord.take s.dispatched := hinv.in_progress_sub n hn_in
    obtain ⟨k, hk, hkget⟩ := (mem_take_iff_get ord s.dispatched n).mp hn_take
    have hd : d ∉ s.in_progress := hinv.no_pred k hk d (by rw [hkget]; exact hedge)
    exact ⟨hd, fun hr =>
      hd (hinv.pool_running_sub d (List.mem_append.mpr (Or.inr hr)))⟩

/-- A two-node chain graph 0→1 used by the scheduler witnesses. -/
def chainGraph : Graph Nat :=
  ⟨[0, 1], [(0, 1)]⟩

/-- C6 witness: in the concrete run dispatch 0, start 0, finish 0,
dispatch 1 of the chain graph, when node 1 starts its predecessor 0 is
neither registered nor running. -/
theorem run_concurrently_no_overlap_witness :
    (0 : Nat) ∉ (⟨2, [1], [], [1], [(0, 5)]⟩ : ConcState Nat Nat).in_progress ∧
    (0 : Nat) ∉ (⟨2, [1], [], [1], [(0, 5)]⟩ : ConcState Nat Nat).running := by
  refine run_concurrently_no_overlap chainGraph [0, 1] (fun m => some (m + 5))
    ⟨2, [1], [], [1], [(0, 5)]⟩ ⟨2, [], [1], [1], [(0, 5)]⟩ 1 0
    ?_ ?_ ?_ (by decide)
  · unfold ValidOrdering
    decide
  · refine ConcReaches.tail ⟨1, [], [], [], [(0, 5)]⟩ _ ConcEvent.dispatch ?_ ?_
    · refine ConcReaches.tail ⟨1, [], [0], [0], []⟩ _ (ConcEvent.finish 0) ?_ ?_
      · refine ConcReaches.tail ⟨1, [0], [], [0], []⟩ _ (ConcEvent.start 0) ?_ ?_
        · refine ConcReaches.tail ⟨0, [], [], [], []⟩ _ ConcEvent.dispatch ?_ ?_
          · exact ConcReaches.refl
          · refine ConcStep.dispatch _ (by decide) ?_
            intro d hd
            simp only [chainGraph] at hd
            simp at hd
        · exact ConcStep.start _ 0 [] rfl (by decide)
      · exact ConcStep.finish_ok _ 0 5 (by decide) rfl
    · refine ConcStep.dispatch _ (by decide) ?_
      intro d hd
      simp only [chainGraph] at hd
      simp at hd
      subst hd
      decide
  · exact ConcStep.start _ 1 [] rfl (by decide)

/-- C8: once a node whose work function raises sits in the in_progress
set, no transition ever removes it, its result is never recorded, and if
the next node of the ordering depends on it the dispatch loop can never
advance: every state reachable from such a state has the same dispatch
index (the scheduler waits forever in wait_on_predecessors). -/
theorem run_concurrently_failure_deadlock (g : Graph α) (ord : List α)
    (work : α → Option β) (s : ConcState α β) (d : α)
    (hi : s.dispatched < ord.length)
    (hd : d ∈ s.in_progress) (hw : work d = none)
    (hedge : (d, ord.get ⟨s.dispatched, hi⟩) ∈ g.edges)
    (hres : ∀ v, (d, v) ∉ s.results) :
    ∀ s', ConcReaches g ord work s s' →
      s'.dispatched = s.dispatched ∧ d ∈ s'.in_progress ∧
        ∀ v, (d, v) ∉ s'.results := by
  intro s' hreach
  induction hreach with
  | refl => exact ⟨rfl, hd, hres⟩
  | tail t u e hst htu ih =>
    obtain ⟨hdisp, hdin, hdres⟩ := ih
    cases htu with
    | dispatch h hwait =>
      exfalso
      have hfin : (⟨t.dispatched, h⟩ : Fin ord.length) = ⟨s.dispatched, hi⟩ :=
        Fin.ext hdisp
      refine hwait d ?_ hdin
      rw [hfin]
      exact hedge
    | start n rest hp hcap =>
      exact ⟨hdisp, hdin, hdres⟩
    | finish_ok n v hr hv =>
      have hdn : d ≠ n := by
        intro hh
        rw [hh, hv] at hw
        exact Option.noConfusion hw
      refine ⟨hdisp, (List.mem_erase_of_ne hdn).mpr hdin, ?_⟩
      intro v' hv'
      rcases List.mem_append.mp hv' with hvv | hvv
      · exact hdres v' hvv
      · rw [List.mem_singleton] at hvv
        exact hdn (congrArg Prod.fst hvv)
    | finish_raise n hr hv =>
      exact ⟨hdisp, hdin, hdres⟩

/-- C8 witness: with node 0 failed and stuck in the in_progress set and
node 1 depending on it, the dispatch index and the stuck node persist. -/
theorem run_concurrently_failure_deadlock_witness :
    (⟨1, [], [], [0], []⟩ : ConcState Nat Nat).dispatched = 1 ∧
      (0 : Nat) ∈ (⟨1, [], [], [0], []⟩ : ConcState Nat Nat).in_progress := by
  have h := run_concurrently_failure_deadlock chainGraph [0, 1]
      (fun m => if m = 0 then none else some 7) ⟨1, [], [], [0], []⟩ 0
      (by decide) (by decide) rfl (by decide)
      (by intro v; exact List.not_mem_nil _)
      ⟨1, [], [], [0], []⟩ ConcReaches.refl
  exact ⟨h.1, h.2.1⟩

theorem conc_run_bookkeeping (g : Graph α) (ord : List α) (work : α → Option β)
    (f : α → β) (hw : ∀ m, work m = some (f m)) (s : ConcState α β)
    (hreach : ConcReaches g ord work initConcState s) :
    (ord.take s.dispatched).Perm (s.pool ++ s.running ++ s.results.map Prod.fst) ∧
    ∀ p ∈ s.results, p.2 = f p.1 := by
  induction hreach with
  | refl =>
    constructor
    · simp [initConcState]
    · intro p hp
      exact absurd hp (List.not_mem_nil p)
  | tail t u e hst htu ih =>
    obtain ⟨hperm, hres⟩ := ih
    cases htu with
    | dispatch h hwait =>
      refine ⟨?_, hres⟩
      dsimp only
      rw [List.perm_iff_count]
      intro x
      have h1 := hperm.count_eq x
      have h2 : (ord.take (t.dispatched + 1)).count x
          = (ord.take t.dispatched).count x
            + List.count x [ord.get ⟨t.dispatched, h⟩] := by
        rw [take_succ_get ord t.dispatched h, List.count_append]
      by_cases hx : x = ord.get ⟨t.dispatched, h⟩ <;>
        simp [List.count_append, List.count_cons, List.count_nil, hx] at h1 h2 ⊢ <;>
        omega
    | start n rest hp hcap =>
      refine ⟨?_, hres⟩
      dsimp only
      rw [List.perm_iff_count]
      intro x
      have h1 := hperm.count_eq x
      rw [hp] at h1
      by_cases hx : x = n <;>
        simp [List.count_append, List.count_cons, List.count_nil, hx] at h1 ⊢ <;>
        omega
    | finish_ok n v hr hv =>
      constructor
      · dsimp only
        rw [List.perm_iff_count]
        intro x
        have h1 := hperm.count_eq x
        have h2 := (List.perm_cons_erase hr).count_eq x
        by_cases hx : x = n <;>
          simp [List.count_append, List.count_cons, List.count_nil, List.map_append,
            hx] at h1 h2 ⊢ <;>
          omega
      · intro p hp
        dsimp only at hp
        rcases List.mem_append.mp hp with hp | hp
        · exact hres p hp
        · rw [List.mem_singleton] at hp
          have hvf : v = f n := by
            have h3 := hw n
            rw [hv] at h3
            exact Option.some.inj h3
          rw [hp]
          simp [hvf]
    | finish_raise n hr hv =>
      exfalso
      rw [hw n] at hv
      exact Option.noConfusion hv

/-- C7: for a work function with no failures or cross-node effects, any
complete run of the concurrent scheduler (all nodes dispatched, pool and
workers drained) produces a result map with exactly one entry per node of
the ordering, each mapping the node to the work function's value there:
the same association list run_serially returns, up to completion order. -/
theorem run_concurrently_serial_equiv (g : Graph α) (ord : List α)
    (work : α → Option β) (f : α → β) (s : ConcState α β)
    (hord : ValidOrdering g ord)
    (hw : ∀ m, work m = some (f m))
    (hreach : ConcReaches g ord work initConcState s)
    (hfinal : s.dispatched = ord.length ∧ s.pool = [] ∧ s.running = []) :
    run_serially ord work = some (ord.map (fun m => (m, f m))) ∧
    s.results.Perm (ord.map (fun m => (m, f m))) := by
  obtain ⟨hbook, hvals⟩ := conc_run_bookkeeping g ord work f hw s hreach
  obtain ⟨hlen, hpool, hrun⟩ := hfinal
  constructor
  · exact run_serially_all_some f ord work (fun m _ => hw m)
  · rw [hlen, List.take_length, hpool, hrun] at hbook
    simp only [List.nil_append] at hbook
    have hself : ∀ (rs : List (α × β)), (∀ p ∈ rs, p.2 = f p.1) →
        rs = (rs.map Prod.fst).map (fun m => (m, f m)) := by
      intro rs hrs
      induction rs with
      | nil => rfl
      | cons p tl ih =>
        rw [List.map_cons, List.map_cons]
        rw [← ih (fun q hq => hrs q (List.mem_cons_of_mem p hq))]
        have hp2 := hrs p (List.mem_cons_self p tl)
        obtain ⟨a, b⟩ := p
        simp only at hp2
        rw [hp2]
    rw [hself s.results hvals]
    exact (hbook.symm).map (fun m => (m, f m))

/-- A one-node graph used by the result-equivalence witness. -/
def singletonGraph : Graph Nat :=
  ⟨[0], []⟩

/-- C7 witness: a complete one-node concurrent run records the same result
map run_serially returns. -/
theorem run_concurrently_serial_equiv_witness :
    run_serially [0] (fun m => some (m + 3)) = some [(0, 3)] ∧
    ([((0 : Nat), (3 : Nat))] : List (Nat × Nat)).Perm
      ([0].map (fun m => (m, m + 3))) := by
  have hreach : ConcReaches singletonGraph [0] (fun m => some (m + 3))
      initConcState ⟨1, [], [], [], [(0, 3)]⟩ := by
    refine ConcReaches.tail ⟨1, [], [0], [0], []⟩ _ (ConcEvent.finish 0) ?_ ?_
    · refine ConcReaches.tail ⟨1, [0], [], [0], []⟩ _ (ConcEvent.start 0) ?_ ?_
      · refine ConcReaches.tail ⟨0, [], [], [], []⟩ _ ConcEvent.dispatch ?_ ?_
        · exact ConcReaches.refl
        · refine ConcStep.dispatch _ (by decide) ?_
          intro d hd
          simp only [singletonGraph] at hd
          simp at hd
      · exact ConcStep.start _ 0 [] rfl (by decide)
    · exact ConcStep.finish_ok _ 0 3 (by decide) rfl
  have h := run_concurrently_serial_equiv singletonGraph [0] (fun m => some (m + 3))
      (fun m => m + 3) ⟨1, [], [], [], [(0, 3)]⟩
      (by unfold ValidOrdering; decide) (fun m => rfl) hreach ⟨rfl, rfl, rfl⟩
  constructor
  · have h1 := h.1
    simpa using h1
  · exact h.2

end GraphExecution
